import Mathlib

/-!
Shallow embedding of `src/C-Shell/c_shell.c` (the `shh` shell) and proofs
about its behaviour.

Modelling conventions:
* C `int` status values stay `Nat` (the code only ever produces 0 and 1).
* The observable world is a record: current working directory, lines written
  to stdout and stderr, the number of child processes forked so far, the
  number of `waitpid` calls made, and whether the last wait loop reached a
  terminal child state.
* The OS environment is a record `Sys`: the set of existing directories
  (`chdir` succeeds exactly on those) and the outcome of `fork` — `none`
  models a fork failure, `some reports` models a successful fork whose
  successive `waitpid(pid, &status, WUNTRACED)` calls report the states in
  `reports`, in order.
* `perror` output depends on `errno` text, which is abstracted into a fixed
  diagnostic line.
* Allocation failure paths (`malloc`/`realloc` returning NULL) are not
  modelled: every claim here is about the non-allocation-failure behaviour.
-/

/-- A child-process state as reported by `waitpid` with `WUNTRACED`:
exited normally with a code, killed by a signal, or stopped by a signal. -/
inductive ChildState : Type where
  | exited : Nat → ChildState
  | signaled : Nat → ChildState
  | stopped : Nat → ChildState
deriving DecidableEq, Repr

/-- `WIFEXITED` of a reported state. -/
def WIFEXITED : ChildState → Bool
  | ChildState.exited _ => true
  | _ => false

/-- `WIFSIGNALED` of a reported state. -/
def WIFSIGNALED : ChildState → Bool
  | ChildState.signaled _ => true
  | _ => false

/-- A state is terminal when the child exited or was killed by a signal;
a stopped child is not terminal. -/
def isTerminal (s : ChildState) : Bool :=
  WIFEXITED s || WIFSIGNALED s

/-- The OS environment an execution runs against. -/
structure Sys : Type where
  fs : List String
  fork : Option (List ChildState)
deriving DecidableEq, Repr

/-- The observable world state of the interpreter process. -/
structure World : Type where
  cwd : String
  out : List String
  errs : List String
  children : Nat
  waitCalls : Nat
  waitedTerminal : Bool
deriving DecidableEq, Repr

/-- Diagnostic printed by `shh_cd` when `args[1]` is NULL. -/
def cdMissingArgMsg : String := "shh: expected argument to \x22cd\x22"

/-- Diagnostic printed by `perror(\x22shh\x22)` (the `errno` text is abstracted). -/
def perrorMsg : String := "shh: error"

/-- The prompt written at the top of each loop iteration. -/
def promptMsg : String := "> "

/-- `builtin_str`: the registered builtin command names, in registry order. -/
def builtin_str : List String := ["cd", "help", "exit"]

/-- `shh_num_builtins()`. -/
def shh_num_builtins : Nat := builtin_str.length

/-- The type of a builtin handler / the launch path:
token sequence and world in, status and world out. -/
abbrev Handler : Type := Sys → List String → World → Nat × World

/-- `shh_cd`: if `args[1]` is NULL report a missing argument, otherwise
`chdir(args[1])`, reporting via `perror` on failure; always return 1. -/
def shh_cd (sys : Sys) (args : List String) (w : World) : Nat × World :=
  match args.get? 1 with
  | none => (1, { w with errs := w.errs ++ [cdMissingArgMsg] })
  | some dir =>
      if sys.fs.contains dir then
        (1, { w with cwd := dir })
      else
        (1, { w with errs := w.errs ++ [perrorMsg] })

/-- `shh_help`: print the banner and the builtin names in registry order;
always return 1. -/
def shh_help (_sys : Sys) (_args : List String) (w : World) : Nat × World :=
  (1, { w with out := w.out ++
        ["AkG\x27s SHH ",
         "Type program names and arguments, and hit enter.",
         "The following are built in:"]
        ++ builtin_str.map (fun s => "    " ++ s)
        ++ ["Use the man command for information on other programs."] })

/-- `shh_exit`: return 0 unconditionally, ignoring the arguments. -/
def shh_exit (_sys : Sys) (_args : List String) (w : World) : Nat × World :=
  (0, w)

/-- The parent's reaping loop
`do { wpid = waitpid(pid, &status, WUNTRACED); } while (!WIFEXITED(status) && !WIFSIGNALED(status));`
over the successive states `waitpid` reports. Returns the number of
`waitpid` calls made and whether a terminal state was reached (if the
report list runs out without a terminal state, the loop is still waiting). -/
def shh_wait : List ChildState → Nat × Bool
  | [] => (0, false)
  | s :: rest =>
      if isTerminal s then (1, true)
      else
        let p := shh_wait rest
        (p.1 + 1, p.2)

/-- `shh_launch`: fork; on fork failure `perror` and return 1 without
waiting; on success the parent waits for the child via `shh_wait`;
always return 1. (The child's `execvp` and its failure path happen in the
child process image and are absorbed into the reported states.) -/
def shh_launch (sys : Sys) (_args : List String) (w : World) : Nat × World :=
  match sys.fork with
  | none => (1, { w with errs := w.errs ++ [perrorMsg] })
  | some reports =>
      let p := shh_wait reports
      (1, { w with
              children := w.children + 1,
              waitCalls := w.waitCalls + p.1,
              waitedTerminal := p.2 })

/-- `builtin_func`: the handler array parallel to `builtin_str`. -/
def builtin_func : List Handler := [shh_cd, shh_help, shh_exit]

/-- The dispatch loop of `shh_execute`: walk the two parallel arrays,
returning the handler at the first index whose name equals `cmd`. -/
def lookupBuiltin : String → List String → List Handler → Option Handler
  | _, [], _ => none
  | _, _ :: _, [] => none
  | cmd, s :: ss, f :: fs => if cmd = s then some f else lookupBuiltin cmd ss fs

/-- `shh_execute`: empty token sequence is a no-op returning 1; a first
token matching a registered builtin name dispatches to its handler with the
full token sequence; anything else goes to `shh_launch`. -/
def shh_execute (sys : Sys) (args : List String) (w : World) : Nat × World :=
  match args with
  | [] => (1, w)
  | cmd :: _ =>
      match lookupBuiltin cmd builtin_str builtin_func with
      | some f => f sys args w
      | none => shh_launch sys args w

/-- `SHH_TOK_DELIM = \x22 \t\n\r\a\x22`: the tokenizer delimiter characters. -/
def SHH_TOK_DELIM : List Char := [' ', '\t', '\n', '\r', '\x07']

/-- Whether a character is one of the tokenizer delimiters. -/
def isDelim (c : Char) : Bool := SHH_TOK_DELIM.contains c

/-- The complement predicate: a token character. -/
def isTokChar (c : Char) : Bool := !isDelim c

/-- Auxiliary length bound for the tokenizer recursion. -/
theorem length_dropWhile_le (p : Char → Bool) (l : List Char) :
    (l.dropWhile p).length ≤ l.length := by
  induction l with
  | nil => simp [List.dropWhile]
  | cons c rest ih =>
      by_cases h : p c
      · rw [List.dropWhile_cons_of_pos h]
        exact Nat.le_succ_of_le ih
      · rw [List.dropWhile_cons_of_neg h]

/-- `shh_split_line`: collect the tokens `strtok(line, SHH_TOK_DELIM)` /
`strtok(NULL, SHH_TOK_DELIM)` produce, in order. Each `strtok` call skips
leading delimiters and, if anything remains, yields the maximal run of
non-delimiter characters starting there. (The NULL terminator of the C
token array is the end of the Lean list; buffer reallocation is invisible
at this level.) -/
def shh_split_line (line : List Char) : List (List Char) :=
  match h : line.dropWhile isDelim with
  | [] => []
  | c :: rest =>
      (c :: rest.takeWhile isTokChar) :: shh_split_line (rest.dropWhile isTokChar)
termination_by line.length
decreasing_by
  have h1 : (line.dropWhile isDelim).length ≤ line.length :=
    length_dropWhile_le isDelim line
  rw [h] at h1
  simp only [List.length_cons] at h1
  have h2 : (rest.dropWhile isTokChar).length ≤ rest.length :=
    length_dropWhile_le isTokChar rest
  omega

/-- One-step unfolding of `shh_split_line`. -/
theorem shh_split_line_eq (line : List Char) :
    shh_split_line line =
      match line.dropWhile isDelim with
      | [] => []
      | c :: rest =>
          (c :: rest.takeWhile isTokChar) :: shh_split_line (rest.dropWhile isTokChar) := by
  rw [shh_split_line.eq_def]
  split <;> rename_i heq <;> rw [heq]

/-- `shh_read_line`: read characters from the input stream one at a time;
at EOF (exhausted stream) or a newline, return the characters accumulated so
far. Returns the line (newline excluded) and the rest of the stream. -/
def shh_read_line : List Char → List Char × List Char
  | [] => ([], [])
  | c :: rest =>
      if c = '\n' then ([], rest)
      else
        let p := shh_read_line rest
        (c :: p.1, p.2)

/-- The token sequence `shh_split_line` yields for a line, as strings (the
C code hands `char **` slices of the line buffer to `shh_execute`). -/
def tokensOfLine (line : List Char) : List String :=
  (shh_split_line line).map (fun t => String.mk t)

/-- The initial world of a fresh interpreter process. -/
def initWorld : World :=
  { cwd := "/", out := [], errs := [], children := 0,
    waitCalls := 0, waitedTerminal := false }

/-- `shh_loop`: print the prompt, read a line, split it, execute it, and
repeat while the status is nonzero. `fuel` bounds the number of iterations
the model will unfold: `none` means the loop did not finish within `fuel`
iterations. On exit the final world is returned. -/
def shh_loop : Nat → Sys → List Char → World → Option World
  | 0, _, _, _ => none
  | fuel + 1, sys, input, w =>
      let w1 := { w with out := w.out ++ [promptMsg] }
      let p := shh_read_line input
      let args := tokensOfLine p.1
      let r := shh_execute sys args w1
      if r.1 = 0 then some r.2 else shh_loop fuel sys p.2 r.2

/-- `main`: run the loop from the initial world and return `EXIT_SUCCESS`
(0) when (and only when) the loop terminates. -/
def shh_main (fuel : Nat) (sys : Sys) (input : List Char) : Option Nat :=
  (shh_loop fuel sys input initWorld).map (fun _ => 0)

/-- Specification-side tokenizer, following the spec's words: the line is
split at every single delimiter character (the delimiter set is a set of
single characters, not sequences), keeping the possibly empty pieces
between consecutive delimiters. -/
def chunks : List Char → List (List Char)
  | [] => [[]]
  | c :: rest =>
      if isDelim c then [] :: chunks rest
      else
        match chunks rest with
        | [] => [[c]]
        | t :: ts => (c :: t) :: ts

/-- Specification-side token sequence: the maximal runs of non-delimiter
characters, i.e. the nonempty pieces — consecutive delimiters collapse to
zero empty tokens. -/
def maximalRuns (l : List Char) : List (List Char) :=
  (chunks l).filter (fun t => !t.isEmpty)

/-- The head of a `dropWhile p` result falsifies `p`. -/
theorem dropWhile_eq_cons_false (p : Char → Bool) (l : List Char)
    (c : Char) (t : List Char) (h : l.dropWhile p = c :: t) : p c = false := by
  induction l with
  | nil => simp [List.dropWhile] at h
  | cons a rest ih =>
      by_cases ha : p a
      · rw [List.dropWhile_cons_of_pos ha] at h
        exact ih h
      · rw [List.dropWhile_cons_of_neg ha] at h
        cases h
        exact Bool.of_not_eq_true ha

/-- `takeWhile p` keeps a list all of whose elements satisfy `p`. -/
theorem takeWhile_all (p : Char → Bool) (l : List Char)
    (h : l.all p = true) : l.takeWhile p = l := by
  induction l with
  | nil => rfl
  | cons a rest ih =>
      simp only [List.all_cons, Bool.and_eq_true] at h
      rw [List.takeWhile_cons_of_pos h.1, ih h.2]

/-- `dropWhile p` drops a list all of whose elements satisfy `p`. -/
theorem dropWhile_all (p : Char → Bool) (l : List Char)
    (h : l.all p = true) : l.dropWhile p = [] := by
  induction l with
  | nil => rfl
  | cons a rest ih =>
      simp only [List.all_cons, Bool.and_eq_true] at h
      rw [List.dropWhile_cons_of_pos h.1]
      exact ih h.2

/-- `takeWhile` across an all-satisfying prefix stops at the first failing
element. -/
theorem takeWhile_append_stop (p : Char → Bool) (l : List Char) (x : Char)
    (r : List Char) (h : l.all p = true) (hx : p x = false) :
    (l ++ x :: r).takeWhile p = l := by
  induction l with
  | nil => simp [List.takeWhile_cons_of_neg, hx]
  | cons a rest ih =>
      simp only [List.all_cons, Bool.and_eq_true] at h
      rw [List.cons_append, List.takeWhile_cons_of_pos h.1, ih h.2]

/-- `dropWhile` across an all-satisfying prefix stops at the first failing
element. -/
theorem dropWhile_append_stop (p : Char → Bool) (l : List Char) (x : Char)
    (r : List Char) (h : l.all p = true) (hx : p x = false) :
    (l ++ x :: r).dropWhile p = x :: r := by
  induction l with
  | nil => simp [List.dropWhile_cons_of_neg, hx]
  | cons a rest ih =>
      simp only [List.all_cons, Bool.and_eq_true] at h
      rw [List.cons_append, List.dropWhile_cons_of_pos h.1]
      exact ih h.2

/-- The tokenizer yields no token for the empty line. -/
theorem shh_split_line_nil : shh_split_line [] = [] := by
  rw [shh_split_line_eq, List.dropWhile_nil]

/-- A delimiter at the head of the line is skipped by the tokenizer. -/
theorem shh_split_line_delim_cons (c : Char) (l : List Char)
    (hc : isDelim c = true) : shh_split_line (c :: l) = shh_split_line l := by
  rw [shh_split_line_eq (c :: l), shh_split_line_eq l,
    List.dropWhile_cons_of_pos hc]

/-- A non-delimiter at the head of the line starts a token. -/
theorem shh_split_line_tok_cons (c : Char) (l : List Char)
    (hc : isDelim c = false) :
    shh_split_line (c :: l) =
      (c :: l.takeWhile isTokChar) :: shh_split_line (l.dropWhile isTokChar) := by
  rw [shh_split_line_eq (c :: l),
    List.dropWhile_cons_of_neg (by simp [hc])]

/-- Structural unfolding of `chunks`: the first piece is the maximal run at
the head of the line; the rest restarts after the first delimiter. -/
theorem chunks_eq (l : List Char) :
    chunks l = l.takeWhile isTokChar ::
      (match l.dropWhile isTokChar with
       | [] => []
       | _ :: r => chunks r) := by
  induction l with
  | nil => rfl
  | cons c rest ih =>
      by_cases hc : isDelim c
      · have hc' : isTokChar c = false := by simp [isTokChar, hc]
        rw [List.takeWhile_cons_of_neg (by simp [hc']),
          List.dropWhile_cons_of_neg (by simp [hc'])]
        simp only [chunks, if_pos hc]
      · have hc' : isTokChar c = true := by simp [isTokChar, hc]
        rw [List.takeWhile_cons_of_pos hc', List.dropWhile_cons_of_pos hc']
        simp only [chunks, if_neg hc]
        rw [ih]

/-- A delimiter at the head of the line contributes no maximal run. -/
theorem maximalRuns_delim_cons (c : Char) (l : List Char)
    (hc : isDelim c = true) : maximalRuns (c :: l) = maximalRuns l := by
  simp [maximalRuns, chunks, if_pos hc, List.filter]

/-- Leading delimiters contribute no maximal run. -/
theorem maximalRuns_dropWhile (l : List Char) :
    maximalRuns (l.dropWhile isDelim) = maximalRuns l := by
  induction l with
  | nil => rfl
  | cons c rest ih =>
      by_cases hc : isDelim c
      · rw [List.dropWhile_cons_of_pos hc, ih, maximalRuns_delim_cons c rest hc]
      · rw [List.dropWhile_cons_of_neg hc]

/-- The `strtok` loop of `shh_split_line` computes exactly the maximal runs
of non-delimiter characters, in left-to-right order. -/
theorem shh_split_line_eq_maximalRuns (l : List Char) :
    shh_split_line l = maximalRuns l := by
  cases hd : l.dropWhile isDelim with
  | nil =>
      have hstep : shh_split_line l = [] := by
        rw [shh_split_line_eq l, hd]
      rw [hstep, ← maximalRuns_dropWhile l, hd]
      rfl
  | cons c rest =>
      have hc : isDelim c = false := dropWhile_eq_cons_false isDelim l c rest hd
      have hlen : rest.length + 1 ≤ l.length := by
        have h1 := length_dropWhile_le isDelim l
        rw [hd] at h1
        simpa using h1
      have hstep : shh_split_line l =
          (c :: rest.takeWhile isTokChar) ::
            shh_split_line (rest.dropWhile isTokChar) := by
        rw [shh_split_line_eq l, hd]
      rw [hstep, ← maximalRuns_dropWhile l, hd]
      unfold maximalRuns
      rw [chunks_eq (c :: rest),
        List.takeWhile_cons_of_pos (p := isTokChar) (by simp [isTokChar, hc]),
        List.dropWhile_cons_of_pos (p := isTokChar) (by simp [isTokChar, hc]),
        List.filter_cons_of_pos (by simp)]
      congr 1
      cases hd2 : rest.dropWhile isTokChar with
      | nil =>
          have hstep2 : shh_split_line ([] : List Char) = [] := by
            rw [shh_split_line_eq, List.dropWhile_nil]
          rw [hstep2]
          rfl
      | cons d r =>
          have hd' : isTokChar d = false := dropWhile_eq_cons_false isTokChar rest d r hd2
          have hdd : isDelim d = true := by
            revert hd'
            simp [isTokChar]
          have hr : (d :: r).length ≤ rest.length := by
            have h2 := length_dropWhile_le isTokChar rest
            rw [hd2] at h2
            exact h2
          have hrec : shh_split_line (d :: r) = maximalRuns (d :: r) :=
            shh_split_line_eq_maximalRuns (d :: r)
          rw [maximalRuns_delim_cons d r hdd] at hrec
          exact hrec
termination_by l.length
decreasing_by
  simp only [List.length_cons] at hr ⊢
  omega

/-- Every piece a `chunks` decomposition yields consists of non-delimiter
characters only. -/
theorem chunks_all_tokChar (l : List Char) :
    ∀ t ∈ chunks l, t.all isTokChar = true := by
  induction l with
  | nil =>
      intro t ht
      simp [chunks] at ht
      simp [ht]
  | cons c rest ih =>
      intro t ht
      by_cases hc : isDelim c
      · simp only [chunks, if_pos hc, List.mem_cons] at ht
        rcases ht with ht | ht
        · simp [ht]
        · exact ih t ht
      · have hc' : isTokChar c = true := by simp [isTokChar, hc]
        simp only [chunks, if_neg hc] at ht
        cases hcr : chunks rest with
        | nil =>
            rw [hcr] at ht
            simp only [List.mem_singleton] at ht
            simp [ht, hc']
        | cons u us =>
            rw [hcr] at ht
            simp only [List.mem_cons] at ht
            rcases ht with ht | ht
            · have hu : u.all isTokChar = true := ih u (by rw [hcr]; exact List.mem_cons_self u us)
              simp [ht, hc', hu]
            · exact ih t (by rw [hcr]; exact List.mem_cons_of_mem u ht)

/-- Every maximal run is nonempty and consists of non-delimiter characters. -/
theorem maximalRuns_wellformed (l : List Char) :
    (maximalRuns l).all (fun t => !t.isEmpty && t.all isTokChar) = true := by
  rw [List.all_eq_true]
  intro t ht
  have hmem := List.mem_filter.mp ht
  have h1 : (!t.isEmpty) = true := hmem.2
  have h2 : t.all isTokChar = true := chunks_all_tokChar l t hmem.1
  simp [h1, h2]

/-- The number of `waitpid` calls the reaping loop makes is one more than
the number of leading non-terminal reports, capped by the number of reports
available. -/
theorem shh_wait_fst (reports : List ChildState) :
    (shh_wait reports).1 =
      min ((reports.takeWhile (fun s => !isTerminal s)).length + 1)
        reports.length := by
  induction reports with
  | nil =>
      simp only [shh_wait, List.takeWhile_nil, List.length_nil]
      omega
  | cons s rest ih =>
      by_cases hs : isTerminal s = true
      · rw [List.takeWhile_cons_of_neg (p := fun s => !isTerminal s) (by simp [hs])]
        simp only [shh_wait, if_pos hs, List.length_nil, List.length_cons]
        omega
      · have hs0 : isTerminal s = false := Bool.of_not_eq_true hs
        rw [List.takeWhile_cons_of_pos (p := fun s => !isTerminal s) (by simp [hs0])]
        simp only [shh_wait, if_neg hs, List.length_cons]
        rw [ih]
        omega

/-- The reaping loop reaches a terminal state exactly when some report is
terminal. -/
theorem shh_wait_snd (reports : List ChildState) :
    (shh_wait reports).2 = reports.any isTerminal := by
  induction reports with
  | nil => rfl
  | cons s rest ih =>
      by_cases hs : isTerminal s = true
      · simp [shh_wait, hs]
      · have hs0 : isTerminal s = false := Bool.of_not_eq_true hs
        simp [shh_wait, hs, hs0, ih]

/-- `shh_read_line` in closed form: the line is the longest newline-free
prefix of the stream, and the rest of the stream is what follows the first
newline (everything is consumed when there is none). -/
theorem shh_read_line_eq (input : List Char) :
    shh_read_line input =
      (input.takeWhile (fun c => c != '\n'),
       (input.dropWhile (fun c => c != '\n')).drop 1) := by
  induction input with
  | nil => rfl
  | cons c rest ih =>
      by_cases hc : c = '\n'
      · subst hc
        simp [shh_read_line]
      · have hc' : (c != '\n') = true := by simp [hc]
        simp [shh_read_line, hc, ih, List.takeWhile_cons_of_pos hc',
          List.dropWhile_cons_of_pos hc']

/-- At end-of-stream the loop makes no progress: `shh_read_line` returns the
empty line and leaves the stream empty, the token sequence is empty,
`shh_execute` returns 1, and the loop repeats in the same situation. -/
theorem shh_loop_eof (fuel : Nat) (sys : Sys) (w : World) :
    shh_loop fuel sys [] w = none := by
  induction fuel generalizing w with
  | zero => rfl
  | succ n ih =>
      simp [shh_loop, shh_read_line, tokensOfLine, shh_split_line_nil,
        shh_execute, ih]

/-- The builtin lookup over the parallel arrays, computed. -/
theorem lookupBuiltin_eq (cmd : String) :
    lookupBuiltin cmd builtin_str builtin_func =
      if cmd = "cd" then some shh_cd
      else if cmd = "help" then some shh_help
      else if cmd = "exit" then some shh_exit
      else none := by
  by_cases h1 : cmd = "cd" <;> by_cases h2 : cmd = "help" <;>
    by_cases h3 : cmd = "exit" <;>
    simp [lookupBuiltin, builtin_str, builtin_func, h1, h2, h3]

/-- `shh_execute` on a nonempty token sequence, computed: the three builtin
names dispatch to their handlers, everything else goes to `shh_launch`. -/
theorem shh_execute_cons (sys : Sys) (cmd : String) (rest : List String)
    (w : World) :
    shh_execute sys (cmd :: rest) w =
      if cmd = "cd" then shh_cd sys (cmd :: rest) w
      else if cmd = "help" then shh_help sys (cmd :: rest) w
      else if cmd = "exit" then shh_exit sys (cmd :: rest) w
      else shh_launch sys (cmd :: rest) w := by
  by_cases h1 : cmd = "cd" <;> by_cases h2 : cmd = "help" <;>
    by_cases h3 : cmd = "exit" <;>
    simp [shh_execute, lookupBuiltin_eq, h1, h2, h3]

/-- `shh_cd` always returns status 1. -/
theorem shh_cd_fst (sys : Sys) (args : List String) (w : World) :
    (shh_cd sys args w).1 = 1 := by
  unfold shh_cd
  cases args.get? 1 with
  | none => rfl
  | some dir =>
      dsimp only
      split <;> rfl

/-- `shh_launch` always returns status 1. -/
theorem shh_launch_fst (sys : Sys) (args : List String) (w : World) :
    (shh_launch sys args w).1 = 1 := by
  unfold shh_launch
  cases sys.fork <;> rfl

/-- Neither `shh_cd` nor `shh_help` nor `shh_exit` changes the number of
child processes. -/
theorem builtins_children (sys : Sys) (args : List String) (w : World) :
    (shh_cd sys args w).2.children = w.children ∧
    (shh_help sys args w).2.children = w.children ∧
    (shh_exit sys args w).2.children = w.children := by
  refine ⟨?_, rfl, rfl⟩
  unfold shh_cd
  cases args.get? 1 with
  | none => rfl
  | some dir =>
      dsimp only
      split <;> rfl

/-- The single-space join of a token sequence. -/
def joinSpace : List (List Char) → List Char
  | [] => []
  | [t] => t
  | t :: ts => t ++ ' ' :: joinSpace ts

/-- C1: `shh_execute` returns 0 ("stop") exactly when the first token is
`exit` — every other path (empty line, `cd`, `help`, external launch)
returns 1 ("continue") — and `shh_exit` returns 0 regardless of its
arguments. -/
theorem claim_C1_exit_only_stop (sys : Sys) (args : List String) (w : World) :
    (shh_execute sys args w).1 = (if args.head? = some "exit" then 0 else 1) ∧
    (shh_exit sys args w).1 = 0 := by
  refine ⟨?_, rfl⟩
  cases args with
  | nil => simp [shh_execute]
  | cons cmd rest =>
      rw [shh_execute_cons, List.head?_cons]
      by_cases h1 : cmd = "cd"
      · rw [if_pos h1, if_neg (by simp [h1])]
        exact shh_cd_fst sys (cmd :: rest) w
      · rw [if_neg h1]
        by_cases h2 : cmd = "help"
        · rw [if_pos h2, if_neg (by simp [h2])]
          rfl
        · rw [if_neg h2]
          by_cases h3 : cmd = "exit"
          · rw [if_pos h3, if_pos (by simp [h3])]
            rfl
          · rw [if_neg h3, if_neg (by simp [h3])]
            exact shh_launch_fst sys (cmd :: rest) w

/-- C2: at end-of-stream with no prior `exit`, the loop never terminates:
`shh_read_line` yields the empty line, `shh_execute` returns 1, and the
loop repeats in the identical situation, so no amount of fuel makes
`shh_loop` (or `main`) return — contradicting the specified scenario in
which the loop terminates with exit status zero. -/
theorem claim_C2_eof_never_terminates (fuel : Nat) (sys : Sys) (w : World) :
    shh_loop fuel sys [] w = none ∧ shh_main fuel sys [] = none := by
  refine ⟨shh_loop_eof fuel sys w, ?_⟩
  unfold shh_main
  rw [shh_loop_eof fuel sys initWorld]
  rfl

/-- C3: `cd` with no second token reports "MissingArgument" on the error
stream and leaves the working directory unchanged; `cd dir` for an
existing directory sets the working directory to exactly `dir`; `cd dir`
for a nonexistent path reports the `chdir` failure and leaves the working
directory unchanged; in every case the status is 1 ("continue"). -/
theorem claim_C3_cd_behaviour (sys : Sys) (rest : List String) (w : World) :
    (shh_cd sys ("cd" :: rest) w).1 = 1 ∧
    (match rest with
     | [] => (shh_cd sys ("cd" :: rest) w).2 =
         { w with errs := w.errs ++ [cdMissingArgMsg] }
     | dir :: _ =>
         if sys.fs.contains dir then
           (shh_cd sys ("cd" :: rest) w).2 = { w with cwd := dir }
         else
           (shh_cd sys ("cd" :: rest) w).2 =
             { w with errs := w.errs ++ [perrorMsg] }) := by
  refine ⟨shh_cd_fst sys ("cd" :: rest) w, ?_⟩
  cases rest with
  | nil => rfl
  | cons dir rest2 =>
      by_cases hdir : dir ∈ sys.fs
      · simp [shh_cd, hdir]
      · simp [shh_cd, hdir]

/-- C4: the external launch path always returns 1 ("continue"); on fork
failure it reports the error and returns without forking or waiting; on
fork success the parent waits through exactly the leading non-terminal
(e.g. stopped) reports plus the first terminal one — a stopped state is
never terminal, so the parent keeps waiting — and has reached a terminal
state exactly when some report is terminal (exit or signal). -/
theorem claim_C4_launch_waits (sys : Sys) (args : List String) (w : World) :
    (shh_launch sys args w).1 = 1 ∧
    (match sys.fork with
     | none => (shh_launch sys args w).2 =
         { w with errs := w.errs ++ [perrorMsg] }
     | some reports =>
         (shh_launch sys args w).2.children = w.children + 1 ∧
         (shh_launch sys args w).2.waitCalls =
           w.waitCalls +
             min ((reports.takeWhile (fun s => !isTerminal s)).length + 1)
               reports.length ∧
         (shh_launch sys args w).2.waitedTerminal = reports.any isTerminal) ∧
    (∀ k, isTerminal (ChildState.stopped k) = false) ∧
    (∀ c, isTerminal (ChildState.exited c) = true) ∧
    (∀ k, isTerminal (ChildState.signaled k) = true) := by
  obtain ⟨fs, fork⟩ := sys
  cases fork with
  | none => exact ⟨rfl, rfl, fun k => rfl, fun c => rfl, fun k => rfl⟩
  | some reports =>
      refine ⟨rfl, ⟨rfl, ?_, ?_⟩, fun k => rfl, fun c => rfl, fun k => rfl⟩
      · show w.waitCalls + (shh_wait reports).1 = _
        rw [shh_wait_fst]
      · show (shh_wait reports).2 = _
        rw [shh_wait_snd]

/-- C5: the builtin registry is exactly `cd`, `help`, `exit`; a first token
equal (case-sensitively) to one of them makes `shh_execute` invoke that
builtin's handler on the full token sequence, and no builtin handler
creates a child process; any other first token is delegated to the
external launch path. -/
theorem claim_C5_dispatch (sys : Sys) (cmd : String) (rest : List String)
    (w : World) :
    builtin_str = ["cd", "help", "exit"] ∧
    shh_execute sys (cmd :: rest) w =
      (if cmd = "cd" then shh_cd sys (cmd :: rest) w
       else if cmd = "help" then shh_help sys (cmd :: rest) w
       else if cmd = "exit" then shh_exit sys (cmd :: rest) w
       else shh_launch sys (cmd :: rest) w) ∧
    (shh_cd sys (cmd :: rest) w).2.children = w.children ∧
    (shh_help sys (cmd :: rest) w).2.children = w.children ∧
    (shh_exit sys (cmd :: rest) w).2.children = w.children := by
  refine ⟨rfl, shh_execute_cons sys cmd rest w, ?_, ?_, ?_⟩
  · exact (builtins_children sys (cmd :: rest) w).1
  · exact (builtins_children sys (cmd :: rest) w).2.1
  · exact (builtins_children sys (cmd :: rest) w).2.2

/-- C6: a line consisting solely of delimiter characters (in particular the
empty line) tokenizes to the empty token sequence, on which `shh_execute`
returns 1 ("continue") and leaves the world exactly unchanged. -/
theorem claim_C6_whitespace_noop (line : List Char) (sys : Sys) (w : World)
    (h : line.all isDelim = true) :
    tokensOfLine line = [] ∧
    shh_execute sys (tokensOfLine line) w = (1, w) := by
  have hsplit : shh_split_line line = [] := by
    rw [shh_split_line_eq, dropWhile_all isDelim line h]
  have htok : tokensOfLine line = [] := by
    rw [tokensOfLine, hsplit]
    rfl
  exact ⟨htok, by rw [htok]; rfl⟩

/-- C6 witness: a concrete whitespace-only line is a no-op. -/
theorem claim_C6_whitespace_noop_witness :
    (" \t ".toList.all isDelim = true) ∧
    (tokensOfLine " \t ".toList = [] ∧
      shh_execute (Sys.mk [] none) (tokensOfLine " \t ".toList) initWorld =
        (1, initWorld)) :=
  ⟨by decide,
   claim_C6_whitespace_noop " \t ".toList (Sys.mk [] none) initWorld (by decide)⟩

/-- C7: the tokenizer returns exactly the maximal runs of non-delimiter
characters of the line, in left-to-right order (no empty tokens arise from
consecutive delimiters), where the delimiter set consists of exactly the
single characters space, tab, newline, carriage return and bell; the
NULL terminator of the C token array corresponds to the end of the list. -/
theorem claim_C7_tokenizer (line : List Char) :
    shh_split_line line = maximalRuns line ∧
    (shh_split_line line).all (fun t => !t.isEmpty && t.all isTokChar) = true ∧
    SHH_TOK_DELIM = [' ', '\t', '\n', '\r', '\x07'] ∧
    (∀ c, isDelim c = SHH_TOK_DELIM.contains c) := by
  refine ⟨shh_split_line_eq_maximalRuns line, ?_, rfl, fun c => rfl⟩
  rw [shh_split_line_eq_maximalRuns line]
  exact maximalRuns_wellformed line

/-- C8: `shh_read_line` returns exactly the characters before the first
newline (or before end-of-stream), excluding the newline itself, consuming
them (and the newline) from the stream; at end-of-stream with nothing
accumulated it returns the empty string. -/
theorem claim_C8_read_line (input : List Char) :
    (shh_read_line input).1 = input.takeWhile (fun c => c != '\n') ∧
    (shh_read_line input).2 = (input.dropWhile (fun c => c != '\n')).drop 1 ∧
    shh_read_line [] = ([], []) := by
  have h := shh_read_line_eq input
  exact ⟨by rw [h], by rw [h], rfl⟩

/-- C9: splitting the single-space join of any sequence of nonempty,
delimiter-free tokens returns exactly that sequence. -/
theorem claim_C9_roundtrip (ts : List (List Char))
    (h : ts.all (fun t => !t.isEmpty && t.all isTokChar) = true) :
    shh_split_line (joinSpace ts) = ts := by
  induction ts with
  | nil => exact shh_split_line_nil
  | cons t ts2 ih =>
      rw [List.all_cons, Bool.and_eq_true] at h
      obtain ⟨ht, hts2⟩ := h
      rw [Bool.and_eq_true] at ht
      obtain ⟨htne, htall⟩ := ht
      cases t with
      | nil => simp at htne
      | cons c t' =>
          rw [List.all_cons, Bool.and_eq_true] at htall
          obtain ⟨hc, ht'⟩ := htall
          have hcd : isDelim c = false := by
            revert hc
            simp [isTokChar]
          cases ts2 with
          | nil =>
              show shh_split_line (c :: t') = [c :: t']
              rw [shh_split_line_tok_cons c t' hcd,
                takeWhile_all isTokChar t' ht',
                dropWhile_all isTokChar t' ht',
                shh_split_line_nil]
          | cons t2 ts3 =>
              show shh_split_line ((c :: t') ++ ' ' :: joinSpace (t2 :: ts3)) =
                (c :: t') :: t2 :: ts3
              rw [List.cons_append,
                shh_split_line_tok_cons c (t' ++ ' ' :: joinSpace (t2 :: ts3)) hcd,
                takeWhile_append_stop isTokChar t' ' ' (joinSpace (t2 :: ts3))
                  ht' (by decide),
                dropWhile_append_stop isTokChar t' ' ' (joinSpace (t2 :: ts3))
                  ht' (by decide),
                shh_split_line_delim_cons ' ' (joinSpace (t2 :: ts3)) (by decide),
                ih hts2]

/-- C9 witness: tokenizing the single-space join of `cmd`, `a`, `b`
reproduces exactly those three tokens. -/
theorem claim_C9_roundtrip_witness :
    (["cmd".toList, "a".toList, "b".toList].all
        (fun t => !t.isEmpty && t.all isTokChar) = true) ∧
    shh_split_line (joinSpace ["cmd".toList, "a".toList, "b".toList]) =
      ["cmd".toList, "a".toList, "b".toList] :=
  ⟨by decide,
   claim_C9_roundtrip ["cmd".toList, "a".toList, "b".toList] (by decide)⟩

/-- C10: every status `shh_execute` or any handler produces is one of
exactly the two values 0 ("stop", only from `shh_exit`) and 1 ("continue",
from `shh_cd`, `shh_help`, `shh_launch` and the empty-line path); no third
status value exists on any path. -/
theorem claim_C10_status_binary (sys : Sys) (args : List String) (w : World) :
    ((shh_execute sys args w).1 = 0 ∨ (shh_execute sys args w).1 = 1) ∧
    (shh_cd sys args w).1 = 1 ∧
    (shh_help sys args w).1 = 1 ∧
    (shh_exit sys args w).1 = 0 ∧
    (shh_launch sys args w).1 = 1 := by
  refine ⟨?_, shh_cd_fst sys args w, rfl, rfl, shh_launch_fst sys args w⟩
  cases args with
  | nil => exact Or.inr rfl
  | cons cmd rest =>
      rw [shh_execute_cons]
      by_cases h1 : cmd = "cd"
      · rw [if_pos h1]
        exact Or.inr (shh_cd_fst sys (cmd :: rest) w)
      · rw [if_neg h1]
        by_cases h2 : cmd = "help"
        · rw [if_pos h2]
          exact Or.inr rfl
        · rw [if_neg h2]
          by_cases h3 : cmd = "exit"
          · rw [if_pos h3]
            exact Or.inl rfl
          · rw [if_neg h3]
            exact Or.inr (shh_launch_fst sys (cmd :: rest) w)
